import Mathlib

set_option maxRecDepth 100000

/-!
Shallow embedding of the zwila-azure-storage core (src/src/zwila.js,
src/src/util.js) together with proofs about its folder listing, metadata
encoding, folder creation and SAS-URL issuance behaviour.

The object store (one Azure blob container) is modelled as a finite list of
named blobs; the Azure hierarchy listing (`listBlobsByHierarchy`) is modelled
as a pure function over that list.  JS strings are Lean `String`s, JS `Date`
values are absolute unix timestamps in milliseconds (`Int`), and JS
`undefined` is `Option.none`.
-/

namespace Zwila

/-! ## Character-list primitives used by the embedding -/

/-- Strip `p` from the front of `l`; `some` of the remainder on success. -/
def stripPrefixL : List Char → List Char → Option (List Char)
  | [], l => some l
  | _ :: _, [] => none
  | p :: ps, c :: cs => if c = p then stripPrefixL ps cs else none

/-- Split off everything up to the first `'/'`: `some (before, after)`,
or `none` when the list holds no slash. -/
def breakSlash : List Char → Option (List Char × List Char)
  | [] => none
  | c :: rest =>
    if c = '/' then some ([], rest)
    else match breakSlash rest with
      | some (a, b) => some (c :: a, b)
      | none => none

/-- Does `pat` occur as a contiguous infix of the list?  Models the JS
`String.prototype.includes` test used by `listFolderBlobs`. -/
def containsSeq (pat : List Char) : List Char → Bool
  | [] => decide (pat = [])
  | c :: rest => pat.isPrefixOf (c :: rest) || containsSeq pat rest

theorem stripPrefixL_append (p r : List Char) : stripPrefixL p (p ++ r) = some r := by
  induction p with
  | nil => rfl
  | cons c cs ih => simp [stripPrefixL, ih]

theorem stripPrefixL_eq_some {p l r : List Char} (h : stripPrefixL p l = some r) :
    l = p ++ r := by
  induction p generalizing l with
  | nil => simpa [stripPrefixL, eq_comm] using h.symm
  | cons c cs ih =>
    match l with
    | [] => simp [stripPrefixL] at h
    | x :: xs =>
      by_cases hx : x = c
      · subst hx
        simp only [stripPrefixL, if_pos rfl] at h
        simpa using ih h
      · simp [stripPrefixL, hx] at h

theorem breakSlash_eq_none {l : List Char} (h : '/' ∉ l) : breakSlash l = none := by
  induction l with
  | nil => rfl
  | cons c rest ih =>
    simp only [List.mem_cons, not_or] at h
    simp [breakSlash, Ne.symm h.1, ih h.2]

theorem breakSlash_of_eq_none {l : List Char} (h : breakSlash l = none) : '/' ∉ l := by
  induction l with
  | nil => simp
  | cons c rest ih =>
    by_cases hc : c = '/'
    · subst hc; simp [breakSlash] at h
    · simp only [breakSlash, if_neg hc] at h
      rcases hb : breakSlash rest with _ | ⟨a, b⟩
      · simp only [List.mem_cons, not_or]
        exact ⟨fun hh => hc hh.symm, ih hb⟩
      · rw [hb] at h; simp at h

theorem isPrefixOf_append_self (p t : List Char) : p.isPrefixOf (p ++ t) = true := by
  induction p with
  | nil => simp [List.isPrefixOf]
  | cons c cs ih => simp [List.isPrefixOf, ih]

theorem containsSeq_of_head (pat t : List Char) : containsSeq pat (pat ++ t) = true := by
  cases pat with
  | nil => cases t <;> simp [containsSeq]
  | cons c cs => simp [containsSeq, isPrefixOf_append_self]

theorem containsSeq_append_left (pat a : List Char) {l : List Char}
    (h : containsSeq pat l = true) : containsSeq pat (a ++ l) = true := by
  induction a with
  | nil => simpa using h
  | cons c cs ih =>
    simp only [List.cons_append, containsSeq, Bool.or_eq_true]
    exact Or.inr ih

/-! ## Blobs, containers and the hierarchy listing -/

/-- One stored object: full key (path) and its bytes (modelled as a string,
matching the text payloads this package writes). -/
structure Blob where
  name : String
  content : String
deriving Repr, DecidableEq

/-- The backing container, a flat list of blobs in store order. -/
structure Container where
  blobs : List Blob
deriving Repr, DecidableEq

/-- The reserved per-folder metadata object name (`this.metafilename`). -/
def metafilename : String := "_zwila.md"

/-- An item yielded by `listBlobsByHierarchy('/')`: either a first-level
prefix (`kind === 'prefix'`, name carries the trailing slash) or a blob. -/
inductive HierItem where
  | prefixItem (name : String)
  | blobItem (b : Blob)
deriving Repr, DecidableEq

/-- Azure `listBlobsByHierarchy('/', \x7b prefix \x7d)` over the modelled
container: walk the blobs whose key starts with `pre`; a key whose remainder
holds a further `'/'` contributes one (deduplicated) prefix item, any other
key contributes a blob item.  `seen` accumulates the prefixes already
emitted. -/
def hierSubAux (pre : List Char) : List Blob → List (List Char) → List HierItem
  | [], _ => []
  | b :: rest, seen =>
    match stripPrefixL pre b.name.data with
    | none => hierSubAux pre rest seen
    | some rem =>
      match breakSlash rem with
      | none => HierItem.blobItem b :: hierSubAux pre rest seen
      | some (seg, _) =>
        if seg ∈ seen then hierSubAux pre rest seen
        else HierItem.prefixItem (String.mk (pre ++ seg ++ ['/'])) :: hierSubAux pre rest (seg :: seen)

/-- Hierarchy listing restricted to keys under `pre`. -/
def hierSub (c : Container) (pre : String) : List HierItem :=
  hierSubAux pre.data c.blobs []

/-- Top-level hierarchy listing (`listBlobsByHierarchy('/')`, no prefix). -/
def hierTop (c : Container) : List HierItem :=
  hierSubAux [] c.blobs []

/-- Look a blob up by its full key. -/
def findBlob (c : Container) (key : String) : Option Blob :=
  c.blobs.find? (fun b => b.name = key)

/-- Write (or overwrite) one blob, as `blockBlobClient.upload` does. -/
def putBlob (c : Container) (key content : String) : Container :=
  ⟨c.blobs.filter (fun b => b.name ≠ key) ++ [⟨key, content⟩]⟩

/-- Errors surfaced by the embedded operations. -/
inductive ZErr where
  | notFound (key : String)
  | rangeError (msg : String)
  | signingError (msg : String)
deriving Repr, DecidableEq

/-! ## getFolderMeta / listFolderBlobs / listFolders (src/src/zwila.js) -/

/-- `getFolderMeta(slug)`: download `slug/_zwila.md` and return its raw text
(the function performs no decoding); a missing blob rejects. -/
def getFolderMeta (c : Container) (slug : String) : Except ZErr String :=
  match findBlob c (slug ++ "/" ++ metafilename) with
  | none => .error (.notFound (slug ++ "/" ++ metafilename))
  | some b => .ok b.content

/-- `listFolderBlobs(slug)`: blob-kind items under `slug/` whose name does
not contain the reserved metadata filename as a substring
(`item.kind === 'blob' && !item.name.includes(this.metafilename)`). -/
def listFolderBlobs (c : Container) (slug : String) : List Blob :=
  (hierSub c (slug ++ "/")).filterMap fun it =>
    match it with
    | .blobItem b => if containsSeq metafilename.data b.name.data then none else some b
    | .prefixItem _ => none

/-- One element of the `listFolders` result: the raw metadata text and the
folder's member blobs. -/
structure FolderEntry where
  meta : String
  blobs : List Blob
deriving Repr, DecidableEq

/-- JS truthiness of the optional `slug` argument (`slug && (f !== slug)`):
`null` and the empty string are falsy. -/
def slugTruthy : Option String → Bool
  | none => false
  | some s => s ≠ ""

/-- Body of the `for await` loop of `listFolders`. -/
def listFoldersAux (c : Container) (slug : Option String) : List HierItem → Except ZErr (List FolderEntry)
  | [] => .ok []
  | .blobItem _ :: rest => listFoldersAux c slug rest
  | .prefixItem name :: rest =>
    let f := String.mk name.data.dropLast
    if slugTruthy slug ∧ some f ≠ slug then listFoldersAux c slug rest
    else
      match getFolderMeta c f with
      | .error e => .error e
      | .ok meta =>
        match listFoldersAux c slug rest with
        | .error e => .error e
        | .ok restEntries => .ok (⟨meta, listFolderBlobs c f⟩ :: restEntries)

/-- `listFolders(slug = null)`: walk the container's first-level prefixes,
optionally keep only the one equal to `slug`, and pair each kept folder's raw
metadata text with its member blobs.  The function takes no `includeExpired`
argument and never inspects the stored expiry. -/
def listFolders (c : Container) (slug : Option String := none) : Except ZErr (List FolderEntry) :=
  listFoldersAux c slug (hierTop c)

/-! ## The metadata record and its text encoding

`createFolder` serializes the folder metadata as a TOML-style frontmatter
block (`+++` markers, one `key = value` line per field, `slug` and
`description` in single quotes) followed, when a message is present, by a
blank line, the message verbatim and a final newline.  The decoding half is
not part of src/ (the repository's tests decode with remark + @iarna/toml),
so it is modelled from the spec below. -/

/-- The single-quote character used by the frontmatter template. -/
def squoteChar : Char := Char.ofNat 39

/-- The single-quote as a one-character string. -/
def squote : String := String.mk [squoteChar]

/-- One decimal digit character. -/
def digitChar (n : Nat) : Char := Char.ofNat (48 + n % 10)

/-- Little-endian decimal digits, with explicit recursion fuel so that the
definition reduces inside the kernel. -/
def natToRevDigitsF : Nat → Nat → List Char
  | 0, _ => []
  | fuel + 1, n => if n < 10 then [digitChar n] else digitChar (n % 10) :: natToRevDigitsF fuel (n / 10)

/-- Little-endian decimal digits of a natural number (never empty). -/
def natToRevDigits (n : Nat) : List Char := natToRevDigitsF (n + 1) n

/-- Decimal rendering of a natural number, modelling the JS
number-to-string coercion in the template. -/
def natDecimal (n : Nat) : String := String.mk (natToRevDigits n).reverse

/-- Value of a little-endian digit list. -/
def revDigitsToNat : List Char → Nat
  | [] => 0
  | c :: rest => (c.toNat - 48) + 10 * revDigitsToNat rest

theorem digitChar_isDigit (n : Nat) : (digitChar n).isDigit = true := by
  have h : n % 10 < 10 := Nat.mod_lt _ (by omega)
  unfold digitChar
  interval_cases h : n % 10 <;> decide

theorem toNat_digitChar (n : Nat) : (digitChar n).toNat = 48 + n % 10 := by
  have h : n % 10 < 10 := Nat.mod_lt _ (by omega)
  unfold digitChar
  interval_cases h : n % 10 <;> decide

theorem natToRevDigitsF_spec : ∀ fuel n, n < fuel →
    revDigitsToNat (natToRevDigitsF fuel n) = n ∧ natToRevDigitsF fuel n ≠ [] ∧
    (natToRevDigitsF fuel n).all Char.isDigit = true := by
  intro fuel
  induction fuel with
  | zero => omega
  | succ f ih =>
    intro n hn
    by_cases h : n < 10
    · rw [natToRevDigitsF, if_pos h]
      refine ⟨?_, by simp, by simp [digitChar_isDigit]⟩
      simp [revDigitsToNat, toNat_digitChar, Nat.mod_eq_of_lt h]
    · rw [natToRevDigitsF, if_neg h]
      have hdiv : n / 10 < n := Nat.div_lt_self (by omega) (by omega)
      obtain ⟨h1, _, h3⟩ := ih (n / 10) (by omega)
      refine ⟨?_, by simp, by simp [digitChar_isDigit, h3]⟩
      simp only [revDigitsToNat, toNat_digitChar, h1]
      omega

theorem revDigitsToNat_natToRevDigits (n : Nat) : revDigitsToNat (natToRevDigits n) = n :=
  (natToRevDigitsF_spec (n + 1) n (by omega)).1

theorem natToRevDigits_ne_nil (n : Nat) : natToRevDigits n ≠ [] :=
  (natToRevDigitsF_spec (n + 1) n (by omega)).2.1

theorem natToRevDigits_all_digits (n : Nat) :
    (natToRevDigits n).all Char.isDigit = true :=
  (natToRevDigitsF_spec (n + 1) n (by omega)).2.2

/-! ### Splitting a character stream into newline-separated lines -/

/-- Split a character list at every `'\n'` (the result is never empty and has
one more element than the number of newlines). -/
def splitNlAux : List Char → List (List Char)
  | [] => [[]]
  | c :: rest =>
    if c = '\n' then [] :: splitNlAux rest
    else
      match splitNlAux rest with
      | l :: ls => (c :: l) :: ls
      | [] => [[c]]

/-- Rejoin lines with `'\n'`, the inverse of `splitNlAux`. -/
def joinNl : List (List Char) → List Char
  | [] => []
  | [l] => l
  | l :: ls => l ++ '\n' :: joinNl ls

theorem splitNlAux_ne_nil (l : List Char) : splitNlAux l ≠ [] := by
  cases l with
  | nil => simp [splitNlAux]
  | cons c rest =>
    by_cases hc : c = '\n'
    · simp [splitNlAux, hc]
    · simp only [splitNlAux, if_neg hc]
      rcases splitNlAux rest with _ | ⟨l, ls⟩ <;> simp

theorem splitNlAux_newline_free {a : List Char} (ha : '\n' ∉ a) (rest : List Char) :
    splitNlAux (a ++ '\n' :: rest) = a :: splitNlAux rest := by
  induction a with
  | nil => simp [splitNlAux]
  | cons c cs ih =>
    simp only [List.mem_cons, not_or] at ha
    rw [List.cons_append, splitNlAux, if_neg (fun hh => ha.1 hh.symm), ih ha.2]

theorem splitNlAux_append_newline (l : List Char) :
    splitNlAux (l ++ ['\n']) = splitNlAux l ++ [[]] := by
  induction l with
  | nil => simp [splitNlAux]
  | cons c rest ih =>
    by_cases hc : c = '\n'
    · subst hc; simp [splitNlAux, ih]
    · simp only [List.cons_append, splitNlAux, if_neg hc, ih]
      rcases hs : splitNlAux rest with _ | ⟨l', ls'⟩
      · exact absurd hs (splitNlAux_ne_nil rest)
      · rw [hs] at ih
        simp [ih]

theorem joinNl_splitNlAux (l : List Char) : joinNl (splitNlAux l) = l := by
  induction l with
  | nil => rfl
  | cons c rest ih =>
    by_cases hc : c = '\n'
    · subst hc
      rw [splitNlAux, if_pos rfl]
      rcases hs : splitNlAux rest with _ | ⟨l', ls'⟩
      · exact absurd hs (splitNlAux_ne_nil rest)
      · rw [hs] at ih
        simp [joinNl, ih]
    · rw [splitNlAux, if_neg hc]
      rcases hs : splitNlAux rest with _ | ⟨l', ls'⟩
      · exact absurd hs (splitNlAux_ne_nil rest)
      · rw [hs] at ih
        cases ls' with
        | nil => simpa [joinNl] using ih
        | cons x xs => simpa [joinNl] using ih

/-! ### The record type, encoder and (spec-modelled) decoder -/

/-- A folder metadata record: the field set fixed by the spec's
MetadataCodec (slug, description, expiry as an ISO-instant string, download
counter, optional message body). -/
structure FolderMeta where
  slug : String
  description : String
  expiry : String
  downloads : Nat
  message : Option String
deriving Repr, DecidableEq

/-- The frontmatter template of `createFolder` (src/src/zwila.js lines
53-60), as a function of the record: `createFolder` instantiates it with
`downloads = 0`; the spec's codec contract (section 4.1) treats `downloads`
as a record field, so the template renders it from the record here.  A falsy
(absent or empty) message leaves the body out, as `if (message)` does. -/
def encodeMeta (m : FolderMeta) : String :=
  let md := "+++\n" ++
    "slug = " ++ squote ++ m.slug ++ squote ++ "\n" ++
    "description = " ++ squote ++ m.description ++ squote ++ "\n" ++
    "expiry = " ++ m.expiry ++ "\n" ++
    "downloads = " ++ natDecimal m.downloads ++ "\n" ++
    "+++\n"
  match m.message with
  | some msg => if msg = "" then md else md ++ "\n" ++ msg ++ "\n"
  | none => md

/-- The frontmatter start/end marker line. -/
def hdrL : List Char := "+++".data

/-- The ` = ` separator between a key and its value. -/
def eqSepL : List Char := " = ".data

/-- The `slug` key. -/
def slugKeyL : List Char := "slug".data

/-- The `description` key. -/
def descKeyL : List Char := "description".data

/-- The `expiry` key. -/
def expKeyL : List Char := "expiry".data

/-- The `downloads` key. -/
def dlKeyL : List Char := "downloads".data

/-- Parse a `key = 'value'` line: strip the key, the equals sign and the
opening quote, then require and strip the closing quote. -/
def parseQuotedL (key : List Char) (line : List Char) : Option (List Char) :=
  match stripPrefixL (key ++ eqSepL ++ [squoteChar]) line with
  | none => none
  | some r => if r.getLast? = some squoteChar then some r.dropLast else none

/-- Parse an unquoted `key = value` line. -/
def parseKeyL (key : List Char) (line : List Char) : Option (List Char) :=
  stripPrefixL (key ++ eqSepL) line

/-- Decode the line list of a metadata record.  Modelled from the spec
(section 4.1): the decoding half of the MetadataCodec is not part of src/
(the repository's tests decode via remark + @iarna/toml); per the spec it
parses the `+++`-delimited preamble field by field, surfaces the failing
field's name on malformed input, and treats the optional body after the
blank line as an opaque byte-for-byte message. -/
def decodeLines : List (List Char) → Except String FolderMeta
  | l0 :: l1 :: l2 :: l3 :: l4 :: l5 :: rest =>
    if l0 ≠ hdrL then .error "start marker" else
    if l5 ≠ hdrL then .error "end marker" else
    match parseQuotedL slugKeyL l1 with
    | none => .error "slug"
    | some sl =>
      match parseQuotedL descKeyL l2 with
      | none => .error "description"
      | some de =>
        match parseKeyL expKeyL l3 with
        | none => .error "expiry"
        | some ex =>
          match parseKeyL dlKeyL l4 with
          | none => .error "downloads"
          | some dl =>
            if dl = [] ∨ dl.all Char.isDigit = false then .error "downloads" else
            match rest with
            | [[]] =>
              .ok ⟨String.mk sl, String.mk de, String.mk ex, revDigitsToNat dl.reverse, none⟩
            | [] :: ls =>
              if ls.getLast? = some [] then
                .ok ⟨String.mk sl, String.mk de, String.mk ex, revDigitsToNat dl.reverse,
                  some (String.mk (joinNl ls.dropLast))⟩
              else .error "message"
            | _ => .error "message"
  | _ => .error "preamble"

/-- Decode a metadata record from its stored text. -/
def decodeMeta (s : String) : Except String FolderMeta :=
  decodeLines (splitNlAux s.data)

/-! ### Round-trip: decode is a left inverse of encode -/

theorem string_mk_data (s : String) : String.mk s.data = s := rfl

theorem data_mk (l : List Char) : (String.mk l).data = l := rfl

theorem nin_append {α : Type} {a : α} {l₁ l₂ : List α} (h₁ : a ∉ l₁) (h₂ : a ∉ l₂) :
    a ∉ l₁ ++ l₂ := by simp [List.mem_append, h₁, h₂]

theorem parseQuotedL_roundtrip (key v : List Char) :
    parseQuotedL key ((key ++ eqSepL ++ [squoteChar]) ++ (v ++ [squoteChar])) = some v := by
  unfold parseQuotedL
  rw [stripPrefixL_append]
  simp [List.getLast?_concat, List.dropLast_concat]

theorem parseKeyL_roundtrip (key v : List Char) :
    parseKeyL key ((key ++ eqSepL) ++ v) = some v := by
  unfold parseKeyL
  rw [stripPrefixL_append]

/-- The encoded bytes, cut at every newline of the template.  The slug,
description and expiry lines keep the shape `prefix ++ payload` so the parse
lemmas above apply verbatim. -/
theorem splitNl_encodeMeta (m : FolderMeta)
    (hs : '\n' ∉ m.slug.data) (hd : '\n' ∉ m.description.data) (he : '\n' ∉ m.expiry.data) :
    splitNlAux (encodeMeta m).data =
      hdrL ::
      ((slugKeyL ++ eqSepL ++ [squoteChar]) ++ (m.slug.data ++ [squoteChar])) ::
      ((descKeyL ++ eqSepL ++ [squoteChar]) ++ (m.description.data ++ [squoteChar])) ::
      ((expKeyL ++ eqSepL) ++ m.expiry.data) ::
      ((dlKeyL ++ eqSepL) ++ (natToRevDigits m.downloads).reverse) ::
      hdrL ::
      (match m.message with
       | none => [[]]
       | some msg => if msg = "" then [[]] else [] :: (splitNlAux msg.data ++ [[]])) := by
  have hq : '\n' ∉ [squoteChar] := by decide
  have h1 : '\n' ∉ (slugKeyL ++ eqSepL ++ [squoteChar]) ++ (m.slug.data ++ [squoteChar]) :=
    nin_append (nin_append (nin_append (by decide) (by decide)) hq) (nin_append hs hq)
  have h2 : '\n' ∉ (descKeyL ++ eqSepL ++ [squoteChar]) ++ (m.description.data ++ [squoteChar]) :=
    nin_append (nin_append (nin_append (by decide) (by decide)) hq) (nin_append hd hq)
  have h3 : '\n' ∉ (expKeyL ++ eqSepL) ++ m.expiry.data :=
    nin_append (nin_append (by decide) (by decide)) he
  have h4 : '\n' ∉ (dlKeyL ++ eqSepL) ++ (natToRevDigits m.downloads).reverse := by
    refine nin_append (nin_append (by decide) (by decide)) ?_
    have hall := natToRevDigits_all_digits m.downloads
    simp only [List.all_eq_true] at hall
    intro hmem
    have := hall _ (List.mem_reverse.mp hmem)
    simp [Char.isDigit] at this
  have hhdr : '\n' ∉ hdrL := by decide
  have hdata : (encodeMeta m).data =
      hdrL ++ '\n' ::
      (((slugKeyL ++ eqSepL ++ [squoteChar]) ++ (m.slug.data ++ [squoteChar])) ++ '\n' ::
      (((descKeyL ++ eqSepL ++ [squoteChar]) ++ (m.description.data ++ [squoteChar])) ++ '\n' ::
      (((expKeyL ++ eqSepL) ++ m.expiry.data) ++ '\n' ::
      (((dlKeyL ++ eqSepL) ++ (natToRevDigits m.downloads).reverse) ++ '\n' ::
      (hdrL ++ '\n' ::
      (match m.message with
       | none => ([] : List Char)
       | some msg => if msg = "" then [] else '\n' :: (msg.data ++ ['\n']))))))) := by
    cases hmsg : m.message with
    | none =>
      simp only [encodeMeta, hmsg, natDecimal, squote]
      simp [String.data_append, data_mk, hdrL, eqSepL, slugKeyL, descKeyL, expKeyL, dlKeyL, List.append_assoc]
    | some msg =>
      by_cases hne : msg = ""
      · simp only [encodeMeta, hmsg, if_pos hne, natDecimal, squote]
        simp [String.data_append, data_mk, hdrL, eqSepL, slugKeyL, descKeyL, expKeyL, dlKeyL, List.append_assoc]
      · simp only [encodeMeta, hmsg, if_neg hne, natDecimal, squote]
        simp [String.data_append, data_mk, hdrL, eqSepL, slugKeyL, descKeyL, expKeyL, dlKeyL, List.append_assoc]
  rw [hdata, splitNlAux_newline_free hhdr, splitNlAux_newline_free h1,
    splitNlAux_newline_free h2, splitNlAux_newline_free h3, splitNlAux_newline_free h4,
    splitNlAux_newline_free hhdr]
  cases m.message with
  | none => rfl
  | some msg =>
    by_cases hne : msg = ""
    · simp [hne, splitNlAux]
    · simp only [if_neg hne]
      rw [show splitNlAux ('\n' :: (msg.data ++ ['\n'])) = [] :: splitNlAux (msg.data ++ ['\n']) by
        simp [splitNlAux]]
      rw [splitNlAux_append_newline]

theorem decodeLines_encode_ok (m : FolderMeta)
    (hs : '\n' ∉ m.slug.data) (hd : '\n' ∉ m.description.data) (he : '\n' ∉ m.expiry.data)
    (hm : m.message ≠ some "") :
    decodeMeta (encodeMeta m) = .ok m := by
  have hdigits : ¬((natToRevDigits m.downloads).reverse = [] ∨
      ((natToRevDigits m.downloads).reverse.all Char.isDigit) = false) := by
    simp [List.reverse_eq_nil_iff, natToRevDigits_ne_nil, List.all_reverse,
      natToRevDigits_all_digits]
  have hpA := parseQuotedL_roundtrip slugKeyL m.slug.data
  have hpB := parseQuotedL_roundtrip descKeyL m.description.data
  have hpC := parseKeyL_roundtrip expKeyL m.expiry.data
  have hpD := parseKeyL_roundtrip dlKeyL (natToRevDigits m.downloads).reverse
  have hhdr : ¬hdrL ≠ hdrL := by simp
  unfold decodeMeta
  rw [splitNl_encodeMeta m hs hd he]
  cases hmv : m.message with
  | none =>
    simp only [decodeLines, hpA, hpB, hpC, hpD, if_neg hhdr, if_neg hdigits]
    simp only [string_mk_data, List.reverse_reverse, revDigitsToNat_natToRevDigits]
    cases m with
    | mk a b c d e => simp_all
  | some msg =>
    have hne : msg ≠ "" := fun hh => hm (by rw [hmv, hh])
    simp only [if_neg hne]
    rcases hsp : splitNlAux msg.data with _ | ⟨x, xs⟩
    · exact absurd hsp (splitNlAux_ne_nil msg.data)
    · simp only [List.cons_append]
      simp only [decodeLines, hpA, hpB, hpC, hpD, if_neg hhdr, if_neg hdigits]
      have hlast : (x :: (xs ++ [[]])).getLast? = some [] := by
        rw [show x :: (xs ++ [[]]) = (x :: xs) ++ [[]] by simp, List.getLast?_concat]
      have hdrop : (x :: (xs ++ [[]])).dropLast = x :: xs := by
        rw [show x :: (xs ++ [[]]) = (x :: xs) ++ [[]] by simp, List.dropLast_concat]
      simp only [hlast, hdrop, if_pos rfl]
      rw [← hsp, joinNl_splitNlAux, string_mk_data]
      simp only [string_mk_data, List.reverse_reverse, revDigitsToNat_natToRevDigits]
      cases m with
      | mk a b c d e => simp_all

/-! ## Timestamps and the ISO-8601 rendering of JS Date -/

/-- Milliseconds per day. -/
def msPerDay : Int := 86400000

/-- UTC day number (days since the Unix epoch) of a millisecond timestamp;
this is the "date component" of the instant. -/
def msToDay (ms : Int) : Int := ms / msPerDay

/-- Proleptic-Gregorian civil date `(year, month, day)` of a day number
(Hinnant's `civil_from_days`); all divisions are floor divisions, which `:=`
the Euclidean `/` on `Int` performs for these positive divisors. -/
def civilFromDays (z0 : Int) : Int × Int × Int :=
  let z := z0 + 719468
  let era := z / 146097
  let doe := z % 146097
  let yoe := (doe - doe / 1460 + doe / 36524 - doe / 146096) / 365
  let y := yoe + era * 400
  let doy := doe - (365 * yoe + yoe / 4 - yoe / 100)
  let mp := (5 * doy + 2) / 153
  let d := doy - (153 * mp + 2) / 5 + 1
  let m := mp + (if mp < 10 then 3 else -9)
  (y + (if m ≤ 2 then 1 else 0), m, d)

/-- Zero-pad to two digits. -/
def pad2 (n : Nat) : String := if n < 10 then "0" ++ natDecimal n else natDecimal n

/-- Zero-pad to three digits. -/
def pad3 (n : Nat) : String :=
  if n < 10 then "00" ++ natDecimal n else if n < 100 then "0" ++ natDecimal n else natDecimal n

/-- Zero-pad to four digits. -/
def pad4 (n : Nat) : String :=
  if n < 10 then "000" ++ natDecimal n
  else if n < 100 then "00" ++ natDecimal n
  else if n < 1000 then "0" ++ natDecimal n
  else natDecimal n

/-- `Date.prototype.toISOString` (an external JS builtin), modelled for the
years 0-9999: `YYYY-MM-DDTHH:mm:ss.sssZ` of the UTC instant. -/
def isoOfMs (ms : Int) : String :=
  let rem := (ms % msPerDay).toNat
  let c := civilFromDays (msToDay ms)
  pad4 c.1.toNat ++ "-" ++ pad2 c.2.1.toNat ++ "-" ++ pad2 c.2.2.toNat ++ "T" ++
  pad2 (rem / 3600000) ++ ":" ++ pad2 (rem % 3600000 / 60000) ++ ":" ++
  pad2 (rem % 60000 / 1000) ++ "." ++ pad3 (rem % 1000) ++ "Z"

/-- A JS value acceptable where a date is expected: a `Date` object (by its
epoch milliseconds) or a string for the `Date` constructor to parse. -/
inductive DateInput where
  | date (ms : Int)
  | str (s : String)
deriving Repr, DecidableEq

/-- JS truthiness of the optional `expiry` argument: `null` and the empty
string are falsy, any `Date` object is truthy. -/
def dateInputTruthy : Option DateInput → Bool
  | none => false
  | some (.str s) => s ≠ ""
  | some (.date _) => true

/-- Lines 48-52 of `createFolder`: a falsy expiry defaults to
`new Date(Date.now() + 31*24*60*60*1000).toISOString()`, anything else is
normalized with `new Date(expiry).toISOString()`.  The JS `Date` string
parser is an external collaborator, passed in as the `parseDate` oracle
(`none` = Invalid Date, whose `toISOString()` throws a RangeError).  The
resolved epoch milliseconds are returned alongside the rendered string. -/
def resolveExpiry (parseDate : String → Option Int) (now : Int)
    (input : Option DateInput) : Except ZErr (Int × String) :=
  if dateInputTruthy input = false then
    let ms := now + 31 * 24 * 60 * 60 * 1000
    .ok (ms, isoOfMs ms)
  else
    match input with
    | some (.date ms) => .ok (ms, isoOfMs ms)
    | some (.str s) =>
      match parseDate s with
      | some ms => .ok (ms, isoOfMs ms)
      | none => .error (.rangeError "Invalid time value")
    | none => .error (.rangeError "unreachable")

/-! ## URLs and percent-decoding -/

/-- The storage endpoint: account name and container name. -/
structure Endpoint where
  account : String
  container : String
deriving Repr, DecidableEq

/-- The canonical (percent-decoded, user-facing) URL of a blob. -/
def canonicalUrl (ep : Endpoint) (blobname : String) : String :=
  "https://" ++ ep.account ++ ".blob.core.windows.net/" ++ ep.container ++ "/" ++ blobname

/-- Percent-encoding of the path separator, as the SDK's
`blockBlobClient.url` does ("/" becomes "%2F"). -/
def encodeSlashesAux : List Char → List Char
  | [] => []
  | c :: rest =>
    if c = '/' then '%' :: '2' :: 'F' :: encodeSlashesAux rest
    else c :: encodeSlashesAux rest

/-- `blockBlobClient.url`: the blob URL with the blob path percent-encoded. -/
def bbcUrl (ep : Endpoint) (blobname : String) : String :=
  "https://" ++ ep.account ++ ".blob.core.windows.net/" ++ ep.container ++ "/" ++
    String.mk (encodeSlashesAux blobname.data)

/-- Value of one hexadecimal digit. -/
def hexVal (c : Char) : Option Nat :=
  if '0' ≤ c ∧ c ≤ '9' then some (c.toNat - 48)
  else if 'a' ≤ c ∧ c ≤ 'f' then some (c.toNat - 87)
  else if 'A' ≤ c ∧ c ≤ 'F' then some (c.toNat - 55)
  else none

/-- `decodeURIComponent` (an external JS builtin), modelled on its `%XX`
escape handling: a percent followed by two hex digits decodes to that byte;
other characters pass through (the real builtin raises on a malformed
escape; the URLs decoded here never contain one). -/
def decodePercentAux : List Char → List Char
  | [] => []
  | c :: a :: b :: rest =>
    if c = '%' then
      match hexVal a, hexVal b with
      | some x, some y => Char.ofNat (16 * x + y) :: decodePercentAux rest
      | _, _ => c :: a :: b :: decodePercentAux rest
    else c :: decodePercentAux (a :: b :: rest)
  | c :: rest => c :: decodePercentAux rest

/-- String-level `decodeURIComponent`. -/
def decodeURIComponent (s : String) : String := String.mk (decodePercentAux s.data)

theorem decodePercentAux_cons_ne {c : Char} (hc : c ≠ '%') (t : List Char) :
    decodePercentAux (c :: t) = c :: decodePercentAux t := by
  rcases t with _ | ⟨a, t2⟩
  · rfl
  · rcases t2 with _ | ⟨b, t3⟩
    · rfl
    · rw [decodePercentAux, if_neg hc]

theorem decodePercentAux_no_percent {l : List Char} (h : '%' ∉ l) :
    decodePercentAux l = l := by
  induction l with
  | nil => rfl
  | cons c rest ih =>
    simp only [List.mem_cons, not_or] at h
    rw [decodePercentAux_cons_ne (fun hh => h.1 hh.symm), ih h.2]

theorem decodePercentAux_append {a l : List Char} (h : '%' ∉ a) :
    decodePercentAux (a ++ l) = a ++ decodePercentAux l := by
  induction a with
  | nil => rfl
  | cons c rest ih =>
    simp only [List.mem_cons, not_or] at h
    rw [List.cons_append, decodePercentAux_cons_ne (fun hh => h.1 hh.symm), ih h.2,
      List.cons_append]

theorem decodePercentAux_encodeSlashes {l : List Char} (h : '%' ∉ l) :
    decodePercentAux (encodeSlashesAux l) = l := by
  induction l with
  | nil => rfl
  | cons c rest ih =>
    simp only [List.mem_cons, not_or] at h
    by_cases hc : c = '/'
    · subst hc
      rw [encodeSlashesAux, if_pos rfl]
      rw [show decodePercentAux ('%' :: '2' :: 'F' :: encodeSlashesAux rest) =
          '/' :: decodePercentAux (encodeSlashesAux rest) from rfl, ih h.2]
    · rw [encodeSlashesAux, if_neg hc,
        decodePercentAux_cons_ne (fun hh => h.1 hh.symm), ih h.2]

/-- Percent-decoding the SDK's encoded blob URL recovers the canonical URL
whenever none of the name parts contains a literal percent sign. -/
theorem decodeURIComponent_bbcUrl (ep : Endpoint) (blobname : String)
    (ha : '%' ∉ ep.account.data) (hc : '%' ∉ ep.container.data) (hb : '%' ∉ blobname.data) :
    decodeURIComponent (bbcUrl ep blobname) = canonicalUrl ep blobname := by
  have hpre : '%' ∉ ("https://" ++ ep.account ++ ".blob.core.windows.net/" ++ ep.container ++ "/").data := by
    simp only [String.data_append]
    exact nin_append (nin_append (nin_append (nin_append (by decide) ha) (by decide)) hc) (by decide)
  unfold decodeURIComponent bbcUrl
  rw [show ("https://" ++ ep.account ++ ".blob.core.windows.net/" ++ ep.container ++ "/" ++
      String.mk (encodeSlashesAux blobname.data)).data =
      ("https://" ++ ep.account ++ ".blob.core.windows.net/" ++ ep.container ++ "/").data ++
      encodeSlashesAux blobname.data by simp [String.data_append, data_mk]]
  rw [decodePercentAux_append hpre, decodePercentAux_encodeSlashes hb]
  rw [show ("https://" ++ ep.account ++ ".blob.core.windows.net/" ++ ep.container ++ "/").data ++
      blobname.data = (canonicalUrl ep blobname).data by simp [canonicalUrl, String.data_append]]

/-! ## createFolder (src/src/zwila.js lines 45-72) -/

/-- Modelled from the spec: the URL-safe alphabet of the external nanoid
dependency - ASCII letters, digits, underscore and hyphen (64 symbols). -/
def urlAlphabet : List Char :=
  "ABCDEFGHIJKLMNOPQRSTUVWXYZabcdefghijklmnopqrstuvwxyz0123456789_-".data

theorem urlAlphabet_length : urlAlphabet.length = 64 := rfl

/-- Modelled from the spec: `nanoid()` - the external npm package producing
"a 21-character cryptographically-random identifier drawn from a URL-safe
alphabet"; the randomness source is the `rand` oracle. -/
def nanoid (rand : Nat → Fin 64) : String :=
  String.mk ((List.range 21).map fun i => urlAlphabet.get ((rand i).cast urlAlphabet_length.symm))

/-- JS truthiness defaulting of an optional string argument
(`if (!x) x = dflt`): `null` and the empty string take the default. -/
def orTruthy : Option String → String → String
  | none, dflt => dflt
  | some s, dflt => if s = "" then dflt else s

/-- What `createFolder` returns on success (the Azure server response is not
modelled). -/
structure CreateResult where
  meta : String
  url : String
deriving Repr, DecidableEq

/-- `createFolder(slug, description, expiry, message)`: fill defaults (fresh
nanoid slug, empty description, now + 31 days expiry), render the
frontmatter text, upload it as `slug/_zwila.md` and return the text plus the
percent-decoded blob URL.  The second component is the container state after
the call; when the expiry conversion throws, no upload happens and the state
is unchanged. -/
def createFolder (ep : Endpoint) (rand : Nat → Fin 64) (parseDate : String → Option Int)
    (now : Int) (c : Container) (slug : Option String := none)
    (description : Option String := none) (expiry : Option DateInput := none)
    (message : Option String := none) : Except ZErr CreateResult × Container :=
  let slugV := orTruthy slug (nanoid rand)
  let descV := orTruthy description ""
  match resolveExpiry parseDate now expiry with
  | .error e => (.error e, c)
  | .ok (_, expiryStr) =>
    let md := encodeMeta ⟨slugV, descV, expiryStr, 0, message⟩
    let key := slugV ++ "/" ++ metafilename
    (.ok ⟨md, decodeURIComponent (bbcUrl ep key)⟩, putBlob c key md)

/-! ## getSASUrl (src/src/zwila.js lines 157-169) -/

/-- The argument record handed to the SDK's signing primitive. -/
structure SASParams where
  containerName : String
  blobName : String
  startsOn : Int
  expiresOn : Int
  permissions : String
deriving Repr, DecidableEq

/-- A signing backend: produces the signature string for the given
parameters, or nothing when the credential cannot sign. -/
def SigningOracle : Type := SASParams → Option String

/-- Modelled from the spec: the Azure SDK's `generateBlobSASQueryParameters`
(an external collaborator).  Per the spec the issued query string carries at
minimum a permission flag, an expiry parameter and a signature parameter; a
credential that cannot sign surfaces a SigningError rather than an unsigned
token. -/
def generateBlobSASQueryParameters (sign : SigningOracle) (p : SASParams) :
    Except ZErr String :=
  match sign p with
  | none => .error (.signingError "cannot sign")
  | some sig =>
    .ok ("st=" ++ isoOfMs p.startsOn ++ "&se=" ++ isoOfMs p.expiresOn ++
      "&sp=" ++ p.permissions ++ "&sig=" ++ sig)

/-- `getSASUrl(slug, filename, minutes = 60)`: request a read-only signature
for `slug/filename` valid from 10 minutes ago until `minutes` from now, and
append it to the percent-decoded blob URL. -/
def getSASUrl (sign : SigningOracle) (now : Int) (ep : Endpoint)
    (slug filename : String) (minutes : Int := 60) : Except ZErr String :=
  let blobname := slug ++ "/" ++ filename
  match generateBlobSASQueryParameters sign
      ⟨ep.container, blobname, now - 10 * 60 * 1000, now + minutes * 60 * 1000, "r"⟩ with
  | .error e => .error e
  | .ok sastoken => .ok (decodeURIComponent (bbcUrl ep blobname) ++ "?" ++ sastoken)

/-- The part of a URL before the first `?`. -/
def pathComponent (s : String) : String := String.mk (s.data.takeWhile (fun c => c ≠ '?'))

/-! ## Content-type inference (src/src/util.js, src/unnamed/part_000) -/

/-- The extension-to-MIME table of the later util.js revision
(src/unnamed/part_000), which adds the `md` entry; the src/src/util.js
revision carries only the first three entries. -/
def textMimeTypes : String → Option String
  | "txt" => some "text/plain"
  | "xml" => some "text/xml"
  | "csv" => some "text/csv"
  | "md" => some "text/markdown; charset=UTF-8"
  | _ => none

/-- Split a character list at every occurrence of `sep`. -/
def splitCharAux (sep : Char) : List Char → List (List Char)
  | [] => [[]]
  | c :: rest =>
    if c = sep then [] :: splitCharAux sep rest
    else
      match splitCharAux sep rest with
      | l :: ls => (c :: l) :: ls
      | [] => [[c]]

/-- `_getFileExtension`: everything after the last dot
(`filename.split('.')` and take the final part). -/
def getFileExtension (filename : String) : String :=
  String.mk ((splitCharAux '.' filename.data).getLastD [])

/-- `_getContentTypeFromFile(filepath)`: `sniff` is the `FileType.fromFile`
result (`none` = undefined: no binary signature recognized) and `isBinary`
the `is-binary-path` verdict, both external collaborators evaluated on the
real file; the result models the JS value of `type` (`none` = undefined,
`some ""` = the initial empty string). -/
def getContentTypeFromFile (sniff : Option String) (isBinary : Bool)
    (filepath : String) : Option String :=
  if sniff.isSome ∧ isBinary then sniff
  else if sniff = none ∧ isBinary = false then textMimeTypes (getFileExtension filepath)
  else some ""

/-! ## Claim-level instances and concrete containers -/

deriving instance DecidableEq for Except

/-- The stored record of the repository's own `zwila-test-expired` test
folder: its expiry instant lies in the past. -/
def expiredMeta : String :=
  encodeMeta ⟨"zwila-test-expired", "Test folder used by AVA test runner during development.",
    "2021-07-04T06:55:00.000Z", 0,
    some "## Your downloads are available until 2021-07-04T06:55:00.000Z"⟩

/-- A container holding only the expired test folder. -/
def cExpired : Container := ⟨[⟨"zwila-test-expired/_zwila.md", expiredMeta⟩]⟩

/-- A well-formed record for the `good` folder. -/
def goodMetaC2 : String := encodeMeta ⟨"good", "", "2099-01-01T00:00:00.000Z", 0, none⟩

/-- A container holding one folder with an unparseable record and one valid
folder. -/
def cCorrupt : Container :=
  ⟨[⟨"bad/_zwila.md", "this is not a metadata record"⟩, ⟨"good/_zwila.md", goodMetaC2⟩]⟩

/-! ## The claims -/

/-- C1.  The spec (and the repository's own test in src/unnamed/part_004)
says `listFolders` without `includeExpired` skips folders whose expiry is at
or before the current instant and includes them when `includeExpired=true`.
The code's `listFolders(slug = null)` takes no second parameter and never
reads the stored expiry: on a container whose only folder expired in 2021,
the slug-filtered listing still returns that folder (one entry, where the
test asserts zero). -/
theorem zwilaC1_listFolders_returns_expired_folder :
    listFolders cExpired (some "zwila-test-expired") = .ok [⟨expiredMeta, []⟩] ∧
    (decodeMeta expiredMeta).map (fun m => m.expiry) = .ok "2021-07-04T06:55:00.000Z" := by
  constructor
  · decide
  · decide

/-- C2 counterexample.  The claim says a folder whose metadata record fails
to decode is skipped, so only the valid folder is listed.  On a container
with one corrupt and one valid folder, `listFolders` lists BOTH folders (it
never decodes), so the corrupt folder is not skipped: the result has two
entries, not one. -/
theorem zwilaC2_counterexample :
    decodeMeta "this is not a metadata record" = .error "preamble" ∧
    listFolders cCorrupt none =
      .ok [⟨"this is not a metadata record", []⟩, ⟨goodMetaC2, []⟩] ∧
    listFolders cCorrupt none ≠ .ok [⟨goodMetaC2, []⟩] := by
  refine ⟨by decide, by decide, by decide⟩

/-- C2 (amended).  `listFolders` stores each folder's raw metadata text
without decoding it: with one undecodable and one valid folder the call
still succeeds (no exception escapes) and the listing contains BOTH folders,
the corrupt one carrying its raw bytes. -/
theorem zwilaC2_no_decode_no_skip (bad good : String)
    (_hbad : ∃ e, decodeMeta bad = .error e) :
    listFolders ⟨[⟨"bad/_zwila.md", bad⟩, ⟨"good/_zwila.md", good⟩]⟩ none =
      .ok [⟨bad, []⟩, ⟨good, []⟩] := by
  rfl

/-- C2 witness. -/
theorem zwilaC2_witness :
    listFolders ⟨[⟨"bad/_zwila.md", "garbage"⟩, ⟨"good/_zwila.md", "x"⟩]⟩ none =
      .ok [⟨"garbage", []⟩, ⟨"x", []⟩] :=
  zwilaC2_no_decode_no_skip "garbage" "x" ⟨"preamble", by decide⟩

/-- A blob-kind item appears in the hierarchy listing exactly when the blob
is stored, its key extends the listing prefix, and the remainder holds no
further path separator; the `seen` prefix-deduplication set is irrelevant to
blob items. -/
theorem blobItem_mem_hierSubAux (pre : List Char) (b : Blob) :
    ∀ (blobs : List Blob) (seen : List (List Char)),
      HierItem.blobItem b ∈ hierSubAux pre blobs seen ↔
        b ∈ blobs ∧ ∃ rest, stripPrefixL pre b.name.data = some rest ∧ breakSlash rest = none := by
  intro blobs
  induction blobs with
  | nil => intro seen; simp [hierSubAux]
  | cons hd tl ih =>
    intro seen
    rcases hsp : stripPrefixL pre hd.name.data with _ | rem
    · simp only [hierSubAux, hsp]
      rw [ih seen]
      constructor
      · rintro ⟨h1, h2⟩
        exact ⟨List.mem_cons_of_mem _ h1, h2⟩
      · rintro ⟨h1, rest, h2, h3⟩
        rcases List.mem_cons.mp h1 with h1 | h1
        · subst h1; rw [hsp] at h2; simp at h2
        · exact ⟨h1, rest, h2, h3⟩
    · rcases hbs : breakSlash rem with _ | ⟨seg, after⟩
      · simp only [hierSubAux, hsp, hbs, List.mem_cons]
        rw [ih seen]
        constructor
        · rintro (h | ⟨h1, h2⟩)
          · injection h with h'
            subst h'
            exact ⟨Or.inl rfl, rem, hsp, hbs⟩
          · exact ⟨Or.inr h1, h2⟩
        · rintro ⟨h1 | h1, h2⟩
          · subst h1; exact Or.inl rfl
          · exact Or.inr ⟨h1, h2⟩
      · by_cases hseen : seg ∈ seen
        · simp only [hierSubAux, hsp, hbs, if_pos hseen]
          rw [ih seen]
          constructor
          · rintro ⟨h1, h2⟩
            exact ⟨List.mem_cons_of_mem _ h1, h2⟩
          · rintro ⟨h1, rest, h2, h3⟩
            rcases List.mem_cons.mp h1 with h1 | h1
            · subst h1
              rw [hsp] at h2
              injection h2 with h2
              subst h2
              rw [hbs] at h3
              simp at h3
            · exact ⟨h1, rest, h2, h3⟩
        · simp only [hierSubAux, hsp, hbs, if_neg hseen, List.mem_cons]
          rw [ih (seg :: seen)]
          constructor
          · rintro (h | ⟨h1, h2⟩)
            · cases h
            · exact ⟨Or.inr h1, h2⟩
          · rintro ⟨h1 | h1, h2⟩
            · subst h1
              obtain ⟨rest, h2, h3⟩ := h2
              rw [hsp] at h2
              injection h2 with h2
              subst h2
              rw [hbs] at h3
              simp at h3
            · exact Or.inr ⟨h1, h2⟩

/-- C3 counterexample.  The claim says every member object whose name
differs from the reserved metadata name appears in the output.  The code
filters with a substring test (`item.name.includes(this.metafilename)`), so
the member `f/report_zwila.md` - a name different from the reserved
`f/_zwila.md` - is wrongly omitted: only `f/notes.txt` is listed. -/
theorem zwilaC3_counterexample :
    listFolderBlobs ⟨[⟨"f/_zwila.md", "m"⟩, ⟨"f/report_zwila.md", "data"⟩,
        ⟨"f/notes.txt", "n"⟩]⟩ "f" = [⟨"f/notes.txt", "n"⟩] ∧
    ("f/report_zwila.md" : String) ≠ "f/" ++ metafilename := by
  refine ⟨by decide, by decide⟩

/-- C3 (amended).  `listFolderBlobs(slug)` returns exactly the direct blobs
under `slug/` whose full name does NOT contain the reserved metadata
filename as a substring: in particular the reserved object itself never
appears, but members whose names merely contain `_zwila.md` are omitted
too. -/
theorem zwilaC3_member_characterization (c : Container) (slug : String) (b : Blob) :
    (b ∈ listFolderBlobs c slug ↔
      b ∈ c.blobs ∧ ∃ rest, stripPrefixL (slug ++ "/").data b.name.data = some rest ∧
        breakSlash rest = none ∧ containsSeq metafilename.data b.name.data = false) ∧
    (b ∈ listFolderBlobs c slug → b.name ≠ slug ++ "/" ++ metafilename) := by
  have hmem : b ∈ listFolderBlobs c slug ↔
      (HierItem.blobItem b ∈ hierSub c (slug ++ "/") ∧
        containsSeq metafilename.data b.name.data = false) := by
    unfold listFolderBlobs
    rw [List.mem_filterMap]
    constructor
    · rintro ⟨it, hit, hf⟩
      cases it with
      | prefixItem nm => simp at hf
      | blobItem b' =>
        have hf' : (if containsSeq metafilename.data b'.name.data = true then none
            else some b') = some b := hf
        by_cases hc : containsSeq metafilename.data b'.name.data = true
        · rw [if_pos hc] at hf'; simp at hf'
        · rw [if_neg hc] at hf'
          injection hf' with hf'
          subst hf'
          exact ⟨hit, by simpa using hc⟩
    · rintro ⟨hit, hc⟩
      refine ⟨HierItem.blobItem b, hit, ?_⟩
      show (if containsSeq metafilename.data b.name.data = true then none
        else some b) = some b
      rw [if_neg (by simp [hc])]
  constructor
  · rw [hmem, hierSub, blobItem_mem_hierSubAux]
    constructor
    · rintro ⟨⟨h1, rest, h2, h3⟩, h4⟩
      exact ⟨h1, rest, h2, h3, h4⟩
    · rintro ⟨h1, rest, h2, h3, h4⟩
      exact ⟨⟨h1, rest, h2, h3⟩, h4⟩
  · intro hb heq
    have hc : containsSeq metafilename.data b.name.data = false := ((hmem.mp hb)).2
    rw [heq] at hc
    have : containsSeq metafilename.data ((slug ++ "/") ++ metafilename).data = true := by
      rw [String.data_append]
      exact containsSeq_append_left _ _
        (by simpa using containsSeq_of_head metafilename.data [])
    rw [show slug ++ "/" ++ metafilename = (slug ++ "/") ++ metafilename by
      simp [String.append_assoc]] at hc
    rw [this] at hc
    cases hc

/-- C3 witness. -/
theorem zwilaC3_witness :
    (⟨"f/notes.txt", "n"⟩ : Blob).name ≠ "f" ++ "/" ++ metafilename :=
  (zwilaC3_member_characterization
      ⟨[⟨"f/_zwila.md", "m"⟩, ⟨"f/notes.txt", "n"⟩]⟩ "f" ⟨"f/notes.txt", "n"⟩).2
    (by decide)

/-- C4.  Decoding the bytes produced by encoding a folder metadata record
yields the original record, on the codec's defined field set: the preamble
fields are single lines (no embedded newline in slug, description or
expiry) and a present message is nonempty (the template treats a falsy
message exactly like an absent one).  The boundary case of an absent
message body is included (`m.message = none`). -/
theorem zwilaC4_decode_encode_roundtrip (m : FolderMeta)
    (hs : '\n' ∉ m.slug.data) (hd : '\n' ∉ m.description.data) (he : '\n' ∉ m.expiry.data)
    (hm : m.message ≠ some "") :
    decodeMeta (encodeMeta m) = .ok m :=
  decodeLines_encode_ok m hs hd he hm

/-- C4 witness: one record with a message body and one without. -/
theorem zwilaC4_witness :
    decodeMeta (encodeMeta ⟨"2uT", "desc", "2021-08-05T12:00:00.000Z", 0, some "## note"⟩) =
      .ok ⟨"2uT", "desc", "2021-08-05T12:00:00.000Z", 0, some "## note"⟩ ∧
    decodeMeta (encodeMeta ⟨"abc", "", "2021-08-05T12:00:00.000Z", 4, none⟩) =
      .ok ⟨"abc", "", "2021-08-05T12:00:00.000Z", 4, none⟩ :=
  ⟨zwilaC4_decode_encode_roundtrip _ (by decide) (by decide) (by decide) (by decide),
   zwilaC4_decode_encode_roundtrip _ (by decide) (by decide) (by decide) (by decide)⟩

/-- C6.  With a falsy expiry argument `createFolder` stores
`toISOString(now + 31 days)` - an instant whose UTC day number is exactly
today's plus 31 - and any caller-supplied expiry (Date object or parseable
string) is normalized to the absolute ISO instant of its epoch milliseconds
before being encoded into the record. -/
theorem zwilaC6_createFolder_expiry (ep : Endpoint) (rand : Nat → Fin 64)
    (parseDate : String → Option Int) (now : Int) (c : Container)
    (s : String) (d msg : Option String) (hs : s ≠ "") :
    createFolder ep rand parseDate now c (some s) d none msg =
      (.ok ⟨encodeMeta ⟨s, orTruthy d "", isoOfMs (now + 31 * 24 * 60 * 60 * 1000), 0, msg⟩,
          decodeURIComponent (bbcUrl ep (s ++ "/" ++ metafilename))⟩,
        putBlob c (s ++ "/" ++ metafilename)
          (encodeMeta ⟨s, orTruthy d "", isoOfMs (now + 31 * 24 * 60 * 60 * 1000), 0, msg⟩)) ∧
    msToDay (now + 31 * 24 * 60 * 60 * 1000) = msToDay now + 31 ∧
    (∀ ms : Int, resolveExpiry parseDate now (some (.date ms)) = .ok (ms, isoOfMs ms)) ∧
    (∀ (t : String) (ms : Int), t ≠ "" → parseDate t = some ms →
      resolveExpiry parseDate now (some (.str t)) = .ok (ms, isoOfMs ms)) := by
  refine ⟨?_, ?_, ?_, ?_⟩
  · unfold createFolder resolveExpiry
    simp [dateInputTruthy, orTruthy, hs]
  · unfold msToDay msPerDay
    omega
  · intro ms
    unfold resolveExpiry
    simp [dateInputTruthy]
  · intro t ms ht hp
    unfold resolveExpiry
    simp [dateInputTruthy, ht, hp]

/-- C6 witness: the day-number part at a concrete instant. -/
theorem zwilaC6_witness :
    msToDay ((0 : Int) + 31 * 24 * 60 * 60 * 1000) = msToDay 0 + 31 :=
  (zwilaC6_createFolder_expiry ⟨"a", "c"⟩ (fun _ => 0) (fun _ => some 5) 0 ⟨[]⟩
    "f" none none (by decide)).2.1

/-- C7.  With a falsy slug argument `createFolder` names the folder with a
fresh `nanoid()` - 21 characters, each drawn from the URL-safe alphabet of
ASCII letters, digits, underscore and hyphen - and writes the record under
that generated slug. -/
theorem zwilaC7_default_slug (ep : Endpoint) (rand : Nat → Fin 64)
    (parseDate : String → Option Int) (now : Int) (c : Container) (d msg : Option String) :
    (nanoid rand).length = 21 ∧
    (∀ ch ∈ (nanoid rand).data, ch ∈ urlAlphabet) ∧
    createFolder ep rand parseDate now c none d none msg =
      (.ok ⟨encodeMeta ⟨nanoid rand, orTruthy d "", isoOfMs (now + 31 * 24 * 60 * 60 * 1000), 0, msg⟩,
          decodeURIComponent (bbcUrl ep (nanoid rand ++ "/" ++ metafilename))⟩,
        putBlob c (nanoid rand ++ "/" ++ metafilename)
          (encodeMeta ⟨nanoid rand, orTruthy d "",
            isoOfMs (now + 31 * 24 * 60 * 60 * 1000), 0, msg⟩)) := by
  refine ⟨?_, ?_, ?_⟩
  · simp [nanoid, String.length]
  · intro ch hch
    simp only [nanoid, data_mk, List.mem_map, List.mem_range] at hch
    obtain ⟨i, _, rfl⟩ := hch
    exact List.get_mem _ _ _
  · unfold createFolder resolveExpiry
    simp [dateInputTruthy, orTruthy]

/-- C7 witness. -/
theorem zwilaC7_witness :
    (nanoid (fun _ => (0 : Fin 64))).length = 21 ∧ 'A' ∈ urlAlphabet :=
  ⟨(zwilaC7_default_slug ⟨"a", "c"⟩ (fun _ => 0) (fun _ => none) 0 ⟨[]⟩ none none).1,
   (zwilaC7_default_slug ⟨"a", "c"⟩ (fun _ => 0) (fun _ => none) 0 ⟨[]⟩ none none).2.1
     'A' (by decide)⟩

/-- C9 counterexample.  On the revised table (src/unnamed/part_000) `.md`
resolves to `text/markdown; charset=UTF-8`, not the bare `text/markdown` the
claim states; and an unresolvable non-binary path (`a.org`) yields JS
`undefined` (no value), not the empty string. -/
theorem zwilaC9_counterexample :
    getContentTypeFromFile none false "a.org" = none ∧
    (none : Option String) ≠ some "" ∧
    getContentTypeFromFile none false "a.md" = some "text/markdown; charset=UTF-8" ∧
    (some "text/markdown; charset=UTF-8" : Option String) ≠ some "text/markdown" := by
  refine ⟨by decide, by decide, by decide, by decide⟩

/-- C9 (amended).  The recognized plain-text extensions map as
`.txt`→`text/plain`, `.xml`→`text/xml`, `.csv`→`text/csv` and
`.md`→`text/markdown; charset=UTF-8` (the table of the newer util.js; the
src/src/util.js revision has no `.md` entry); when the signature sniff fails
on a non-binary path the result is the table lookup itself - `undefined`
when the extension is unknown - and the remaining sniff/binary-flag
combinations produce the empty string. -/
theorem zwilaC9_content_type_cases (sniff : Option String) (isBinary : Bool) (p : String) :
    (getFileExtension p = "txt" → getContentTypeFromFile none false p = some "text/plain") ∧
    (getFileExtension p = "xml" → getContentTypeFromFile none false p = some "text/xml") ∧
    (getFileExtension p = "csv" → getContentTypeFromFile none false p = some "text/csv") ∧
    (getFileExtension p = "md" →
      getContentTypeFromFile none false p = some "text/markdown; charset=UTF-8") ∧
    (getContentTypeFromFile none false p = textMimeTypes (getFileExtension p)) ∧
    (∀ t, sniff = some t → isBinary = true → getContentTypeFromFile sniff isBinary p = some t) ∧
    (∀ t, sniff = some t → isBinary = false → getContentTypeFromFile sniff isBinary p = some "") ∧
    (sniff = none → isBinary = true → getContentTypeFromFile sniff isBinary p = some "") := by
  refine ⟨?_, ?_, ?_, ?_, ?_, ?_, ?_, ?_⟩
  · intro h; simp [getContentTypeFromFile, h, textMimeTypes]
  · intro h; simp [getContentTypeFromFile, h, textMimeTypes]
  · intro h; simp [getContentTypeFromFile, h, textMimeTypes]
  · intro h; simp [getContentTypeFromFile, h, textMimeTypes]
  · simp [getContentTypeFromFile]
  · intro t ht hb; simp [getContentTypeFromFile, ht, hb]
  · intro t ht hb; simp [getContentTypeFromFile, ht, hb]
  · intro ht hb; simp [getContentTypeFromFile, ht, hb]

/-- C9 witness. -/
theorem zwilaC9_witness :
    getContentTypeFromFile none false "a.txt" = some "text/plain" :=
  (zwilaC9_content_type_cases none false "a.txt").1 (by decide)

/-- C10.  A truthy expiry string the Date parser rejects makes
`new Date(expiry).toISOString()` throw before the metadata upload is
issued: `createFolder` surfaces the RangeError and the container state is
unchanged. -/
theorem zwilaC10_invalid_expiry_throws (ep : Endpoint) (rand : Nat → Fin 64)
    (parseDate : String → Option Int) (now : Int) (c : Container)
    (slug descr msg : Option String) (s : String)
    (hs : s ≠ "") (hp : parseDate s = none) :
    createFolder ep rand parseDate now c slug descr (some (.str s)) msg =
      (.error (.rangeError "Invalid time value"), c) := by
  unfold createFolder resolveExpiry
  simp [dateInputTruthy, hs, hp]

/-- C10 witness. -/
theorem zwilaC10_witness :
    createFolder ⟨"a", "c"⟩ (fun _ => (0 : Fin 64)) (fun _ => none) 0 ⟨[]⟩
        none none (some (.str "bogus")) none =
      (.error (.rangeError "Invalid time value"), (⟨[]⟩ : Container)) :=
  zwilaC10_invalid_expiry_throws ⟨"a", "c"⟩ (fun _ => 0) (fun _ => none) 0 ⟨[]⟩
    none none none "bogus" (by decide) rfl

theorem nin_sappend {c : Char} {s t : String} (h₁ : c ∉ s.data) (h₂ : c ∉ t.data) :
    c ∉ (s ++ t).data := by
  rw [String.data_append]
  exact nin_append h₁ h₂

theorem takeWhile_append_stop {p : Char → Bool} {a : List Char} (ha : ∀ x ∈ a, p x = true)
    {q : Char} (hq : p q = false) (t : List Char) :
    (a ++ q :: t).takeWhile p = a := by
  induction a with
  | nil => simp [List.takeWhile_cons, hq]
  | cons c cs ih =>
    have hc : p c = true := ha c (by simp)
    simp only [List.cons_append, List.takeWhile_cons, hc, if_true]
    rw [ih (fun x hx => ha x (by simp [hx]))]

/-- C5.  On a signable request, `getSASUrl(slug, filename, minutes)` (with
`minutes` defaulting to 60 in the definition) returns the canonical URL of
`slug/filename` followed by `?` and the signed query string whose window is
`[now - 10 minutes, now + minutes]` and whose permission parameter is the
read-only `sp=r`; the path component of the result is exactly the canonical
URL; a different `minutes` value reshapes only the `se=` expiry parameter of
the token, never the path or the permission parameter; and when the
credential cannot sign, the call surfaces a SigningError instead of an
unsigned URL. -/
theorem zwilaC5_getSASUrl_spec (sign : SigningOracle) (now : Int) (ep : Endpoint)
    (slug filename : String) (minutes : Int) (sig : String)
    (hpa : '%' ∉ ep.account.data) (hpc : '%' ∉ ep.container.data)
    (hps : '%' ∉ slug.data) (hpf : '%' ∉ filename.data)
    (hqa : '?' ∉ ep.account.data) (hqc : '?' ∉ ep.container.data)
    (hqs : '?' ∉ slug.data) (hqf : '?' ∉ filename.data) :
    (sign ⟨ep.container, slug ++ "/" ++ filename, now - 10 * 60 * 1000,
        now + minutes * 60 * 1000, "r"⟩ = some sig →
      getSASUrl sign now ep slug filename minutes =
        .ok (canonicalUrl ep (slug ++ "/" ++ filename) ++ "?" ++
          ("st=" ++ isoOfMs (now - 10 * 60 * 1000) ++ "&se=" ++
            isoOfMs (now + minutes * 60 * 1000) ++ "&sp=" ++ "r" ++ "&sig=" ++ sig)) ∧
      pathComponent (canonicalUrl ep (slug ++ "/" ++ filename) ++ "?" ++
          ("st=" ++ isoOfMs (now - 10 * 60 * 1000) ++ "&se=" ++
            isoOfMs (now + minutes * 60 * 1000) ++ "&sp=" ++ "r" ++ "&sig=" ++ sig)) =
        canonicalUrl ep (slug ++ "/" ++ filename)) ∧
    (sign ⟨ep.container, slug ++ "/" ++ filename, now - 10 * 60 * 1000,
        now + minutes * 60 * 1000, "r"⟩ = none →
      getSASUrl sign now ep slug filename minutes = .error (.signingError "cannot sign")) := by
  have hbn : '%' ∉ (slug ++ "/" ++ filename).data :=
    nin_sappend (nin_sappend hps (by decide)) hpf
  have hcanon : '?' ∉ (canonicalUrl ep (slug ++ "/" ++ filename)).data := by
    unfold canonicalUrl
    exact nin_sappend (nin_sappend (nin_sappend (nin_sappend
      (nin_sappend (by decide) hqa) (by decide)) hqc) (by decide))
      (nin_sappend (nin_sappend hqs (by decide)) hqf)
  constructor
  · intro hsig
    have hurl : getSASUrl sign now ep slug filename minutes =
        .ok (canonicalUrl ep (slug ++ "/" ++ filename) ++ "?" ++
          ("st=" ++ isoOfMs (now - 10 * 60 * 1000) ++ "&se=" ++
            isoOfMs (now + minutes * 60 * 1000) ++ "&sp=" ++ "r" ++ "&sig=" ++ sig)) := by
      simp only [getSASUrl, generateBlobSASQueryParameters, hsig]
      rw [decodeURIComponent_bbcUrl ep (slug ++ "/" ++ filename) hpa hpc hbn]
    refine ⟨hurl, ?_⟩
    unfold pathComponent
    rw [show (canonicalUrl ep (slug ++ "/" ++ filename) ++ "?" ++
        ("st=" ++ isoOfMs (now - 10 * 60 * 1000) ++ "&se=" ++
          isoOfMs (now + minutes * 60 * 1000) ++ "&sp=" ++ "r" ++ "&sig=" ++ sig)).data =
        (canonicalUrl ep (slug ++ "/" ++ filename)).data ++ '?' ::
          ("st=" ++ isoOfMs (now - 10 * 60 * 1000) ++ "&se=" ++
            isoOfMs (now + minutes * 60 * 1000) ++ "&sp=" ++ "r" ++ "&sig=" ++ sig).data by
      simp [String.data_append]]
    rw [takeWhile_append_stop (fun x hx => by
        simp only [decide_eq_true_eq]
        intro hxq
        subst hxq
        exact hcanon hx) (by simp) _]
  · intro hfail
    simp only [getSASUrl, generateBlobSASQueryParameters, hfail]

/-- C5 witness. -/
theorem zwilaC5_witness :
    getSASUrl (fun _ => some "SIG") 0 ⟨"acct", "cont"⟩ "f" "a.txt" 60 =
      .ok (canonicalUrl ⟨"acct", "cont"⟩ ("f" ++ "/" ++ "a.txt") ++ "?" ++
        ("st=" ++ isoOfMs ((0 : Int) - 10 * 60 * 1000) ++ "&se=" ++
          isoOfMs ((0 : Int) + 60 * 60 * 1000) ++ "&sp=" ++ "r" ++ "&sig=" ++ "SIG")) :=
  ((zwilaC5_getSASUrl_spec (fun _ => some "SIG") 0 ⟨"acct", "cont"⟩ "f" "a.txt" 60 "SIG"
    (by decide) (by decide) (by decide) (by decide)
    (by decide) (by decide) (by decide) (by decide)).1 rfl).1

/-- Does this hierarchy item name the folder `x` (prefix item whose name,
with the trailing separator chopped, is `x`)? -/
def isFolderItem (x : String) : HierItem → Bool
  | .prefixItem nm => String.mk nm.data.dropLast = x
  | .blobItem _ => false

theorem string_mk_eq_iff (l : List Char) (s : String) : String.mk l = s ↔ l = s.data := by
  constructor
  · intro h; rw [← h]
  · intro h; rw [h, string_mk_data]

/-- Entries produced by the filtered `listFolders` loop: one per hierarchy
item naming the filter slug, each carrying that folder's raw metadata and
member blobs. -/
theorem listFoldersAux_filtered (c : Container) (x : String) (hx : x ≠ "") :
    ∀ (items : List HierItem) (l : List FolderEntry),
      listFoldersAux c (some x) items = .ok l →
      l.length ≤ items.countP (isFolderItem x) ∧
      ∀ e ∈ l, getFolderMeta c x = .ok e.meta ∧ e.blobs = listFolderBlobs c x := by
  intro items
  induction items with
  | nil =>
    intro l hl
    simp only [listFoldersAux] at hl
    injection hl with hl
    subst hl
    simp
  | cons it rest ih =>
    intro l hl
    cases it with
    | blobItem b =>
      rw [listFoldersAux] at hl
      obtain ⟨h1, h2⟩ := ih l hl
      refine ⟨le_trans h1 ?_, h2⟩
      simp [List.countP_cons, isFolderItem]
    | prefixItem nm =>
      rw [listFoldersAux] at hl
      by_cases hfx : String.mk nm.data.dropLast = x
      · rw [if_neg (by simp [hfx])] at hl
        rcases hg : getFolderMeta c (String.mk nm.data.dropLast) with e | meta
        · rw [hg] at hl
          cases hl
        · rw [hg] at hl
          rcases hrest : listFoldersAux c (some x) rest with e | restl
          · rw [hrest] at hl
            cases hl
          · rw [hrest] at hl
            injection hl with hl
            subst hl
            obtain ⟨ihlen, ihall⟩ := ih restl hrest
            constructor
            · have hfi : isFolderItem x (HierItem.prefixItem nm) = true := by
                simp [isFolderItem, hfx]
              simp [List.countP_cons, hfi]
              omega
            · intro e he
              rcases List.mem_cons.mp he with he | he
              · subst he
                rw [hfx] at hg
                exact ⟨hg, by rw [hfx]⟩
              · exact ihall e he
      · rw [if_pos ⟨by simp [slugTruthy, hx], by simp [hfx]⟩] at hl
        obtain ⟨h1, h2⟩ := ih l hl
        refine ⟨le_trans h1 ?_, h2⟩
        simp [List.countP_cons, isFolderItem, hfx]

/-- The top-level hierarchy listing emits at most one prefix item for any
given folder name, and none at all once that name is in the
deduplication accumulator. -/
theorem countP_folderItem_hierSubAux (x : String) :
    ∀ (blobs : List Blob) (seen : List (List Char)),
      (hierSubAux [] blobs seen).countP (isFolderItem x) +
        (if x.data ∈ seen then 1 else 0) ≤ 1 := by
  intro blobs
  induction blobs with
  | nil =>
    intro seen
    simp only [hierSubAux, List.countP_nil, Nat.zero_add]
    split <;> omega
  | cons b rest ih =>
    intro seen
    rw [show hierSubAux [] (b :: rest) seen =
        (match breakSlash b.name.data with
         | none => HierItem.blobItem b :: hierSubAux [] rest seen
         | some (seg, _) =>
           if seg ∈ seen then hierSubAux [] rest seen
           else HierItem.prefixItem (String.mk ([] ++ seg ++ ['/'])) ::
             hierSubAux [] rest (seg :: seen)) from rfl]
    rcases hbs : breakSlash b.name.data with _ | ⟨seg, after⟩
    · have hfi : isFolderItem x (HierItem.blobItem b) = false := rfl
      simp only [List.countP_cons, hfi, if_neg (by decide : ¬(false = true))]
      have := ih seen
      omega
    · by_cases hseen : seg ∈ seen
      · simp only [if_pos hseen]
        exact ih seen
      · simp only [if_neg hseen, List.countP_cons]
        by_cases hsx : seg = x.data
        · subst hsx
          have h2 := ih (x.data :: seen)
          rw [if_pos (List.mem_cons_self _ _)] at h2
          have hfi : isFolderItem x (HierItem.prefixItem (String.mk ([] ++ x.data ++ ['/']))) =
              true := by
            simp only [isFolderItem, data_mk, List.nil_append, List.dropLast_concat]
            simp [string_mk_eq_iff]
          rw [hfi, if_pos rfl, if_neg hseen]
          omega
        · have h2 := ih (seg :: seen)
          have hfi : isFolderItem x (HierItem.prefixItem (String.mk ([] ++ seg ++ ['/']))) =
              false := by
            simp only [isFolderItem, data_mk, List.nil_append, List.dropLast_concat]
            simp [string_mk_eq_iff, hsx]
          rw [hfi, if_neg (by decide : ¬(false = true))]
          by_cases hmem : x.data ∈ seen
          · rw [if_pos (List.mem_cons_of_mem _ hmem)] at h2
            rw [if_pos hmem]
            omega
          · rw [if_neg (fun hh => by
              rcases List.mem_cons.mp hh with h | h
              · exact hsx h.symm
              · exact hmem h)] at h2
            rw [if_neg hmem]
            omega

/-- C8 counterexample.  The claim says the returned entry's metadata slug
equals the filter argument for EVERY container state.  `listFolders` never
cross-checks the stored record against the folder's key: a container whose
blob `X/_zwila.md` holds a record with slug `Y` is returned by
`listFolders(slug="X")` with that mismatched record. -/
theorem zwilaC8_counterexample :
    listFolders ⟨[⟨"X/_zwila.md",
        encodeMeta ⟨"Y", "", "2099-01-01T00:00:00.000Z", 0, none⟩⟩]⟩ (some "X") =
      .ok [⟨encodeMeta ⟨"Y", "", "2099-01-01T00:00:00.000Z", 0, none⟩, []⟩] ∧
    (decodeMeta (encodeMeta ⟨"Y", "", "2099-01-01T00:00:00.000Z", 0, none⟩)).map
      (fun m => m.slug) = .ok "Y" ∧
    ("Y" : String) ≠ "X" := by
  refine ⟨by decide, by decide, by decide⟩

/-- C8 (amended).  For every nonempty slug X, `listFolders(slug=X)` returns
at most one entry, and any returned entry is folder X's own data: its meta
is the raw content of `X/_zwila.md` and its blobs are `listFolderBlobs(X)`.
The metadata's embedded slug field equals X only if the stored record
happens to agree with its key - the code never checks (see the
counterexample); with an empty-string filter the argument is falsy and no
filtering happens at all. -/
theorem zwilaC8_filter_spec (c : Container) (x : String) (l : List FolderEntry)
    (hx : x ≠ "") (hl : listFolders c (some x) = .ok l) :
    l.length ≤ 1 ∧ ∀ e ∈ l, getFolderMeta c x = .ok e.meta ∧ e.blobs = listFolderBlobs c x := by
  obtain ⟨h1, h2⟩ := listFoldersAux_filtered c x hx (hierTop c) l hl
  have hcount := countP_folderItem_hierSubAux x c.blobs []
  simp only [List.not_mem_nil, if_false] at hcount
  refine ⟨le_trans h1 ?_, h2⟩
  unfold hierTop
  omega

/-- C8 witness. -/
theorem zwilaC8_witness :
    ([(⟨"mm", []⟩ : FolderEntry)].length ≤ 1) ∧
      ∀ e ∈ [(⟨"mm", []⟩ : FolderEntry)],
        getFolderMeta ⟨[⟨"g/_zwila.md", "mm"⟩]⟩ "g" = .ok e.meta ∧
        e.blobs = listFolderBlobs ⟨[⟨"g/_zwila.md", "mm"⟩]⟩ "g" :=
  zwilaC8_filter_spec ⟨[⟨"g/_zwila.md", "mm"⟩]⟩ "g" [⟨"mm", []⟩] (by decide) (by decide)

end Zwila
